import Mathlib

/-!
Shallow embedding of the request-lifecycle core of the PyNDN2 client:
`pyndn/impl/pending_interest_table.py` (the pending-interest table) and
`pyndn/threadsafe_face.py` (the thread-safe dispatch / scheduling layer).

Python objects (`PendingInterestTable.Entry`) are heap-allocated and shared
by reference between the table's internal list and caller-held lists, and
only the `_isRemoved` field is mutated after construction.  We model this
with an explicit arena: the heap is a `List (Entry ι)` and a reference to an
entry is its index (`Nat`) in that arena.  `self._table` is then a list of
references, in submission order, exactly as the Python list of objects is.

The interest type `ι` and the name type `ν` are parameters; the external
`Interest.matchesName` predicate is passed in as a function `ι → ν → Bool`,
mirroring the spec's "externally supplied matching predicate".

Python callables that may raise are modelled by an outcome (`PyOutcome`);
callbacks held in entries are identified by a `Nat` token whose behaviour,
when invoked, is supplied as a function `Nat → ι → PyOutcome`.
-/

set_option linter.unusedSectionVars false

namespace PyNDN

/-- Outcome of invoking a Python callable: it returns normally or raises. -/
inductive PyOutcome where
  | ok : PyOutcome
  | exn : PyOutcome
deriving DecidableEq

/-- `PendingInterestTable.Entry.__init__`: `_pendingInterestId`, `_interest`,
`_onData`, `_onTimeout` (optional), `_isRemoved` initially `False`.
`onData` and `onTimeout` are callback tokens. -/
structure Entry (ι : Type) where
  pendingInterestId : Nat
  interest : ι
  onData : Nat
  onTimeout : Option Nat
  isRemoved : Bool
deriving DecidableEq

instance {ι : Type} [Inhabited ι] : Inhabited (Entry ι) :=
  ⟨⟨0, default, 0, none, true⟩⟩

variable {ι ν : Type}

/-- Dereference an entry reference in the arena. -/
def getEntry [Inhabited ι] (heap : List (Entry ι)) (r : Nat) : Entry ι :=
  heap.getD r default

/-- `entry.setIsRemoved()`: set the `_isRemoved` flag of the referenced entry. -/
def markRemoved [Inhabited ι] (heap : List (Entry ι)) (r : Nat) : List (Entry ι) :=
  heap.set r { getEntry heap r with isRemoved := true }

/-- The state of a `PendingInterestTable`: the arena of allocated entries and
`self._table`, the list of entry references in submission order. -/
structure TableState (ι : Type) where
  heap : List (Entry ι)
  table : List Nat
deriving DecidableEq

/-- `PendingInterestTable.__init__`: `self._table = []` (and an empty arena). -/
def emptyTable : TableState ι := ⟨[], []⟩

/-- `PendingInterestTable.add`: construct a fresh `Entry` (allocated at the
next arena slot), append its reference to `self._table`, and return the
reference (Python returns the entry object itself). -/
def add (st : TableState ι) (pendingInterestId : Nat) (interestCopy : ι)
    (onData : Nat) (onTimeout : Option Nat) : TableState ι × Nat :=
  let r := st.heap.length
  let entry : Entry ι := ⟨pendingInterestId, interestCopy, onData, onTimeout, false⟩
  (⟨st.heap ++ [entry], st.table ++ [r]⟩, r)

/-- The `while i >= 0` loop of `extractEntriesForExpressedInterest`.  The
Python loop walks `self._table` from the last index down to 0; on a match it
appends the entry to `entries`, pops it from the table and sets its
`_isRemoved` flag.  Structurally: the tail of the list (the higher indices)
is processed first, then the head, against the heap the tail-pass produced. -/
def extractLoop [Inhabited ι] (matchesName : ι → ν → Bool) (name : ν) :
    List (Entry ι) → List Nat → List Nat → List (Entry ι) × List Nat × List Nat
  | heap, [], entries => (heap, [], entries)
  | heap, t :: rest, entries =>
      let r := extractLoop matchesName name heap rest entries
      if matchesName (getEntry r.1 t).interest name then
        (markRemoved r.1 t, r.2.1, r.2.2 ++ [t])
      else
        (r.1, t :: r.2.1, r.2.2)

/-- `PendingInterestTable.extractEntriesForExpressedInterest(name, entries)`:
run the backwards scan, yielding the new table state and the caller's
`entries` list with the matches appended. -/
def extractEntriesForExpressedInterest [Inhabited ι] (matchesName : ι → ν → Bool)
    (st : TableState ι) (name : ν) (entries : List Nat) :
    TableState ι × List Nat :=
  let r := extractLoop matchesName name st.heap st.table entries
  (⟨r.1, r.2.1⟩, r.2.2)

/-- The `while i >= 0` loop of `removePendingInterest`: walk `self._table`
backwards; on an id match, increment `count`, set `_isRemoved`, pop.  Returns
the final heap, the remaining table and `count`. -/
def removeByIdLoop [Inhabited ι] (pendingInterestId : Nat) :
    List (Entry ι) → List Nat → List (Entry ι) × List Nat × Nat
  | heap, [] => (heap, [], 0)
  | heap, t :: rest =>
      let r := removeByIdLoop pendingInterestId heap rest
      if (getEntry r.1 t).pendingInterestId = pendingInterestId then
        (markRemoved r.1 t, r.2.1, r.2.2 + 1)
      else
        (r.1, t :: r.2.1, r.2.2)

/-- `PendingInterestTable.removePendingInterest(pendingInterestId)`.  When
`count == 0` the source runs
`logging...debug("removePendingInterest: Didn't find pendingInterestId " + pendingInterestId)`;
`pendingInterestId` is an `int` (from `Node.getNextEntryId`), and `str + int`
raises `TypeError` before `debug` is even entered, so the miss branch raises
to the caller.  The second component records whether the call raises. -/
def removePendingInterest [Inhabited ι] (st : TableState ι)
    (pendingInterestId : Nat) : TableState ι × Bool :=
  let r := removeByIdLoop pendingInterestId st.heap st.table
  (⟨r.1, r.2.1⟩, r.2.2 = 0)

/-- `PendingInterestTable.removeEntry(pendingInterest)`: fast-path `False` if
the entry's `_isRemoved` flag is set; else `self._table.index(pendingInterest)`
(identity search, first occurrence) — `ValueError` means `False`; else set the
flag, `del` the found occurrence, return `True`. -/
def removeEntry [Inhabited ι] (st : TableState ι) (pendingInterest : Nat) :
    TableState ι × Bool :=
  if (getEntry st.heap pendingInterest).isRemoved then
    (st, false)
  else if st.table.contains pendingInterest then
    (⟨markRemoved st.heap pendingInterest, st.table.erase pendingInterest⟩, true)
  else
    (st, false)

/-- `Entry.callTimeout()`: if `self._onTimeout` is set, call it with
`self._interest` inside `try: ... except: logging.exception(...)` — a bare
`except`, so a raising callback is caught and logged, never propagated.
Returns the (unchanged) entry, the list of callback invocations made
(callback token paired with the argument passed), and whether an exception
propagates to the caller of `callTimeout` (it never does). -/
def Entry.callTimeout [Inhabited ι] (behavior : Nat → ι → PyOutcome)
    (e : Entry ι) : Entry ι × List (Nat × ι) × Bool :=
  match e.onTimeout with
  | none => (e, [], false)
  | some cb =>
      match behavior cb e.interest with
      | .ok => (e, [(cb, e.interest)], false)
      | .exn => (e, [(cb, e.interest)], false)

/-- `entry.callTimeout()` viewed as acting on a table state: the method runs
on the entry referenced by `r` in the arena and writes back whatever entry
state it produced; `self._table` is not touched by the method at all. -/
def callTimeoutInState [Inhabited ι] (st : TableState ι) (r : Nat)
    (behavior : Nat → ι → PyOutcome) : TableState ι × List (Nat × ι) × Bool :=
  let c := Entry.callTimeout behavior (getEntry st.heap r)
  (⟨st.heap.set r c.1, st.table⟩, c.2)

/-- A batch of `add` calls from the empty table: each element of `reqs` is
`(pendingInterestId, interest, onData, onTimeout)`. -/
def addAll (reqs : List (Nat × ι × Nat × Option Nat)) : TableState ι :=
  reqs.foldl (fun st q => (add st q.1 q.2.1 q.2.2.1 q.2.2.2).1) emptyTable

/-!  ## The ThreadsafeFace scheduling layer (`pyndn/threadsafe_face.py`)

A tick of a periodic service and each public operation are modelled as
functions from the face's state to a new state plus the list of calls the
code makes on the asyncio loop (`LoopEffect`): a thread-safe hand-off
(`call_soon_threadsafe`), a delayed re-arm (`call_later`, delay recorded in
milliseconds: `0.01` s and `0.5` s in the source are 10 ms and 500 ms), or
`loop.stop()`.  A `Bool` records whether the tick lets an exception
propagate out of the callback.  What `self._stopWhenTest()` or
`self.processEvents()` would do on a given tick is an input (`TestResult` /
`PyOutcome`), since both are opaque callables here. -/

/-- The two self-re-arming periodic services. -/
inductive ServiceId where
  | processEvents : ServiceId
  | stopWhen : ServiceId
deriving DecidableEq

/-- A unit of work handed off to the loop thread with
`call_soon_threadsafe`: the helper that performs the network action and the
table insertion, with the pre-allocated id and the arguments. -/
inductive HandoffCall (ι ν : Type) where
  | expressInterestHelper (pendingInterestId : Nat) (interestOrName : ι) : HandoffCall ι ν
  | registerPrefixHelper (registeredPrefixId : Nat) (pfx : ν) : HandoffCall ι ν
  | setInterestFilterHelper (interestFilterId : Nat) (filterOrPrefix : ν) : HandoffCall ι ν
deriving DecidableEq

/-- A call made on `self._loop`. -/
inductive LoopEffect (ι ν : Type) where
  | callSoonThreadsafe (c : HandoffCall ι ν) : LoopEffect ι ν
  | callLater (delayMs : Nat) (s : ServiceId) : LoopEffect ι ν
  | stop : LoopEffect ι ν
deriving DecidableEq

/-- Outcome of calling `self._stopWhenTest()`: it returns a boolean or raises. -/
inductive TestResult where
  | returns (b : Bool) : TestResult
  | raises : TestResult
deriving DecidableEq

/-- State of a `ThreadsafeFace`.  `loop` is whether `self._loop` is not
`None` (the nullable loop reference doubles as the scheduler's liveness
flag); `stopWhenTest` is `self._stopWhenTest` as an optional callback token;
`lastEntryId` is the node's monotonic entry-id counter; `pit` is the node's
pending-interest table; `faceShutdown` records that base-class
`Face.shutdown()` ran. -/
structure TFState (ι ν : Type) where
  loop : Bool
  stopWhenTest : Option Nat
  lastEntryId : Nat
  pit : TableState ι
  faceShutdown : Bool
deriving DecidableEq

/-- Modelled from the spec: `Node.getNextEntryId` is not under `src/`; the
spec describes it as "a cross-thread-safe monotonic unique-id generator" /
"a single lock-free atomic counter" pre-allocating ids on the calling
thread.  It increments the counter and returns the fresh id. -/
def getNextEntryId (lastEntryId : Nat) : Nat × Nat :=
  (lastEntryId + 1, lastEntryId + 1)

/-- `ThreadsafeFace.expressInterest`: allocate `pendingInterestId` with
`self._node.getNextEntryId()` on the calling thread, hand
`_expressInterestHelper` off with `call_soon_threadsafe`, and return the id
immediately.  No table mutation happens on the calling thread. -/
def expressInterest (st : TFState ι ν) (interestOrName : ι) :
    TFState ι ν × Nat × List (LoopEffect ι ν) :=
  let g := getNextEntryId st.lastEntryId
  ({ st with lastEntryId := g.2 }, g.1,
    [.callSoonThreadsafe (.expressInterestHelper g.1 interestOrName)])

/-- `ThreadsafeFace.registerPrefix`: same pattern with `registeredPrefixId`
and `_registerPrefixHelper`. -/
def registerPrefix (st : TFState ι ν) (pfx : ν) :
    TFState ι ν × Nat × List (LoopEffect ι ν) :=
  let g := getNextEntryId st.lastEntryId
  ({ st with lastEntryId := g.2 }, g.1,
    [.callSoonThreadsafe (.registerPrefixHelper g.1 pfx)])

/-- `ThreadsafeFace.setInterestFilter`: same pattern with `interestFilterId`
and `_setInterestFilterHelper`. -/
def setInterestFilter (st : TFState ι ν) (filterOrPrefix : ν) :
    TFState ι ν × Nat × List (LoopEffect ι ν) :=
  let g := getNextEntryId st.lastEntryId
  ({ st with lastEntryId := g.2 }, g.1,
    [.callSoonThreadsafe (.setInterestFilterHelper g.1 filterOrPrefix)])

/-- `ThreadsafeFace.shutdown`: the source line is `self._loop == None` — an
equality comparison whose result is discarded, not the assignment
`self._loop = None` — so `self._loop` is left unchanged; then
`Face.shutdown()` (base-class teardown) runs. -/
def shutdown (st : TFState ι ν) : TFState ι ν :=
  let _loopIsNone := st.loop = false
  { st with faceShutdown := true }

/-- `ThreadsafeFace.stopWhen(test)`: just set (or change) `self._stopWhenTest`. -/
def stopWhen (st : TFState ι ν) (test : Option Nat) : TFState ι ν :=
  { st with stopWhenTest := test }

/-- One tick of `ThreadsafeFace._stopWhenCallback`, given what
`self._stopWhenTest()` would do on this tick.  `if self._loop != None:` then
`stop = False`; inside `try`: if the test is set and returns true, `stop =
True` and `self._loop.stop()`; the `finally` re-arms with
`self._loop.call_later(0.5, self._stopWhenCallback)` when `stop` is false —
even when the test raised, in which case the exception then propagates out
of the callback (there is no `except` clause). -/
def stopWhenCallback (st : TFState ι ν) (testResult : TestResult) :
    TFState ι ν × List (LoopEffect ι ν) × Bool :=
  if st.loop then
    match st.stopWhenTest with
    | none => (st, [.callLater 500 .stopWhen], false)
    | some _ =>
        match testResult with
        | .returns true => (st, [.stop], false)
        | .returns false => (st, [.callLater 500 .stopWhen], false)
        | .raises => (st, [.callLater 500 .stopWhen], true)
  else
    (st, [], false)

/-- One tick of `ThreadsafeFace._processEventsCallback`, given what
`self.processEvents()` would do on this tick.  `if self._loop != None:` then
`try: self.processEvents()` and, in a `finally`, re-arm with
`self._loop.call_later(0.01, self._processEventsCallback)` — even when
`processEvents` raised, in which case the exception propagates out of the
callback. -/
def processEventsCallback (st : TFState ι ν) (processResult : PyOutcome) :
    TFState ι ν × List (LoopEffect ι ν) × Bool :=
  if st.loop then
    (st, [.callLater 10 .processEvents], processResult = .exn)
  else
    (st, [], false)

/-! ## Specification vocabulary -/

/-- Shorthand: does the entry referenced by `t` match `name`? -/
def matchRef [Inhabited ι] (mn : ι → ν → Bool) (name : ν) (heap : List (Entry ι)) (t : Nat) : Bool :=
  mn (getEntry heap t).interest name

/-- Shorthand: does the entry referenced by `t` carry this pending-interest id? -/
def idRef [Inhabited ι] (pendingInterestId : Nat) (heap : List (Entry ι)) (t : Nat) : Bool :=
  (getEntry heap t).pendingInterestId == pendingInterestId

/-- The entry that `add` constructs for a request tuple. -/
def toEntry (q : Nat × ι × Nat × Option Nat) : Entry ι :=
  ⟨q.1, q.2.1, q.2.2.1, q.2.2.2, false⟩

/-- The table invariant of claim C6: references in `self._table` are distinct
live arena slots; an allocated entry's `_isRemoved` flag is false exactly
when the entry is (still) in the table. -/
def WF [Inhabited ι] (st : TableState ι) : Prop :=
  st.table.Nodup ∧
  (∀ t ∈ st.table, t < st.heap.length) ∧
  (∀ t, t < st.heap.length → ((getEntry st.heap t).isRemoved = false ↔ t ∈ st.table))

/-! ## Arena lemmas -/

theorem getD_set_self {α : Type} :
    ∀ (l : List α) (i : Nat) (a d : α), i < l.length →
      (l.set i a).getD i d = a := by
  intro l
  induction l with
  | nil => intro i a d h; simp at h
  | cons x xs ih =>
      intro i a d h
      cases i with
      | zero => rfl
      | succ n => exact ih n a d (Nat.lt_of_succ_lt_succ h)

theorem getD_set_ne {α : Type} :
    ∀ (l : List α) (i j : Nat) (a d : α), i ≠ j →
      (l.set i a).getD j d = l.getD j d := by
  intro l
  induction l with
  | nil => intro i j a d _; simp [List.set]
  | cons x xs ih =>
      intro i j a d hne
      cases i with
      | zero =>
          cases j with
          | zero => exact absurd rfl hne
          | succ m => rfl
      | succ n =>
          cases j with
          | zero => rfl
          | succ m => exact ih n m a d (fun h => hne (by rw [h]))

theorem set_getD_self {α : Type} :
    ∀ (l : List α) (i : Nat) (d : α), l.set i (l.getD i d) = l := by
  intro l
  induction l with
  | nil => intro i d; rfl
  | cons x xs ih =>
      intro i d
      cases i with
      | zero => rfl
      | succ n => simpa using ih n d

theorem set_of_length_le {α : Type} :
    ∀ (l : List α) (i : Nat) (a : α), l.length ≤ i → l.set i a = l := by
  intro l
  induction l with
  | nil => intro i a _; rfl
  | cons x xs ih =>
      intro i a h
      cases i with
      | zero => simp at h
      | succ n => simpa using ih n a (Nat.le_of_succ_le_succ h)

variable [Inhabited ι]

theorem length_markRemoved (heap : List (Entry ι)) (r : Nat) :
    (markRemoved heap r).length = heap.length := by
  simp [markRemoved]

/-- Pointwise description of `markRemoved`: it flips `isRemoved` of the entry
at `r` (when `r` is a live reference) and leaves every other slot alone. -/
theorem getEntry_markRemoved (heap : List (Entry ι)) (r j : Nat) :
    getEntry (markRemoved heap r) j =
      if j = r ∧ r < heap.length
      then { getEntry heap r with isRemoved := true }
      else getEntry heap j := by
  by_cases hj : j = r
  · subst hj
    by_cases hr : j < heap.length
    · unfold markRemoved getEntry
      rw [getD_set_self _ _ _ _ hr]
      simp [hr]
    · have hle : heap.length ≤ j := Nat.le_of_not_lt hr
      unfold markRemoved getEntry
      rw [set_of_length_le _ _ _ hle]
      simp [hr]
  · unfold markRemoved getEntry
    rw [getD_set_ne _ _ _ _ _ (fun h => hj h.symm)]
    simp [hj]

theorem interest_markRemoved (heap : List (Entry ι)) (r j : Nat) :
    (getEntry (markRemoved heap r) j).interest = (getEntry heap j).interest := by
  rw [getEntry_markRemoved]
  split
  · rename_i h
    obtain ⟨h1, _⟩ := h
    subst h1
    rfl
  · rfl

theorem pendingInterestId_markRemoved (heap : List (Entry ι)) (r j : Nat) :
    (getEntry (markRemoved heap r) j).pendingInterestId =
      (getEntry heap j).pendingInterestId := by
  rw [getEntry_markRemoved]
  split
  · rename_i h
    obtain ⟨h1, _⟩ := h
    subst h1
    rfl
  · rfl

theorem extractLoop_nil (mn : ι → ν → Bool) (name : ν) (heap : List (Entry ι))
    (entries : List Nat) :
    extractLoop mn name heap [] entries = (heap, [], entries) := rfl

theorem extractLoop_cons (mn : ι → ν → Bool) (name : ν) (heap : List (Entry ι))
    (t : Nat) (rest entries : List Nat) :
    extractLoop mn name heap (t :: rest) entries =
      if mn (getEntry (extractLoop mn name heap rest entries).1 t).interest name
      then (markRemoved (extractLoop mn name heap rest entries).1 t,
            (extractLoop mn name heap rest entries).2.1,
            (extractLoop mn name heap rest entries).2.2 ++ [t])
      else ((extractLoop mn name heap rest entries).1,
            t :: (extractLoop mn name heap rest entries).2.1,
            (extractLoop mn name heap rest entries).2.2) := rfl

/-- Full characterization of the backwards extraction scan: the surviving
table is the non-matching refs in their original order, the caller's list
gains exactly the matching refs in reverse submission order, and the heap is
the original heap with exactly the (live) matching refs marked removed. -/
theorem extractLoop_spec (mn : ι → ν → Bool) (name : ν) (heap : List (Entry ι)) :
    ∀ (tbl entries : List Nat),
      ((extractLoop mn name heap tbl entries).2.1 =
          tbl.filter (fun t => !(matchRef mn name heap t))) ∧
      ((extractLoop mn name heap tbl entries).2.2 =
          entries ++ (tbl.filter (matchRef mn name heap)).reverse) ∧
      ((extractLoop mn name heap tbl entries).1.length = heap.length) ∧
      (∀ j, getEntry (extractLoop mn name heap tbl entries).1 j =
        if j ∈ tbl.filter (matchRef mn name heap) ∧ j < heap.length
        then { getEntry heap j with isRemoved := true }
        else getEntry heap j) := by
  intro tbl
  induction tbl with
  | nil =>
      intro entries
      refine ⟨rfl, by simp [extractLoop_nil], rfl, ?_⟩
      intro j
      simp [extractLoop_nil]
  | cons t rest ih =>
      intro entries
      obtain ⟨ih1, ih2, ih3, ih4⟩ := ih entries
      have hint : (getEntry (extractLoop mn name heap rest entries).1 t).interest
          = (getEntry heap t).interest := by
        rw [ih4 t]
        split
        · rfl
        · rfl
      cases hm : matchRef mn name heap t with
      | true =>
          have hcond : mn (getEntry (extractLoop mn name heap rest entries).1 t).interest name
              = true := by rw [hint]; exact hm
          rw [extractLoop_cons, hcond]
          simp only [if_true]
          refine ⟨?_, ?_, ?_, ?_⟩
          · rw [ih1, List.filter_cons]
            simp [hm]
          · rw [ih2, List.filter_cons]
            simp [hm]
          · rw [length_markRemoved, ih3]
          · intro j
            rw [getEntry_markRemoved, ih3, List.filter_cons]
            simp only [hm, if_true]
            by_cases hjt : j = t
            · subst hjt
              by_cases hr : j < heap.length
              · simp only [hr, and_true]
                rw [ih4 j]
                by_cases hjr : j ∈ rest.filter (matchRef mn name heap)
                · simp [hjr, hr]
                · simp [hjr, hr]
              · simp only [hr, and_false, if_false]
                rw [ih4 j]
                simp [hr]
            · simp only [hjt, false_and, if_false]
              rw [ih4 j]
              have : (j ∈ t :: rest.filter (matchRef mn name heap)) ↔
                  (j ∈ rest.filter (matchRef mn name heap)) := by
                simp [List.mem_cons, hjt]
              simp [this]
      | false =>
          have hcond : mn (getEntry (extractLoop mn name heap rest entries).1 t).interest name
              = false := by rw [hint]; exact hm
          rw [extractLoop_cons, hcond]
          simp only [Bool.false_eq_true, if_false]
          refine ⟨?_, ?_, ih3, ?_⟩
          · rw [ih1, List.filter_cons]
            simp [hm]
          · rw [ih2, List.filter_cons]
            simp [hm]
          · intro j
            rw [ih4 j, List.filter_cons]
            simp [hm]

theorem removeByIdLoop_cons (pendingInterestId : Nat) (heap : List (Entry ι))
    (t : Nat) (rest : List Nat) :
    removeByIdLoop pendingInterestId heap (t :: rest) =
      if (getEntry (removeByIdLoop pendingInterestId heap rest).1 t).pendingInterestId
          = pendingInterestId
      then (markRemoved (removeByIdLoop pendingInterestId heap rest).1 t,
            (removeByIdLoop pendingInterestId heap rest).2.1,
            (removeByIdLoop pendingInterestId heap rest).2.2 + 1)
      else ((removeByIdLoop pendingInterestId heap rest).1,
            t :: (removeByIdLoop pendingInterestId heap rest).2.1,
            (removeByIdLoop pendingInterestId heap rest).2.2) := rfl

/-- Full characterization of the backwards id-removal scan: the surviving
table is the refs with a different id in their original order, `count` is the
number of refs removed, and the heap gains removal marks on exactly the
(live) removed refs. -/
theorem removeByIdLoop_spec (pendingInterestId : Nat) (heap : List (Entry ι)) :
    ∀ (tbl : List Nat),
      ((removeByIdLoop pendingInterestId heap tbl).2.1 =
          tbl.filter (fun t => !(idRef pendingInterestId heap t))) ∧
      ((removeByIdLoop pendingInterestId heap tbl).2.2 =
          (tbl.filter (idRef pendingInterestId heap)).length) ∧
      ((removeByIdLoop pendingInterestId heap tbl).1.length = heap.length) ∧
      (∀ j, getEntry (removeByIdLoop pendingInterestId heap tbl).1 j =
        if j ∈ tbl.filter (idRef pendingInterestId heap) ∧ j < heap.length
        then { getEntry heap j with isRemoved := true }
        else getEntry heap j) := by
  intro tbl
  induction tbl with
  | nil =>
      refine ⟨rfl, rfl, rfl, ?_⟩
      intro j
      simp [removeByIdLoop]
  | cons t rest ih =>
      obtain ⟨ih1, ih2, ih3, ih4⟩ := ih
      have hid : (getEntry (removeByIdLoop pendingInterestId heap rest).1 t).pendingInterestId
          = (getEntry heap t).pendingInterestId := by
        rw [ih4 t]
        split
        · rfl
        · rfl
      cases hm : idRef pendingInterestId heap t with
      | true =>
          have heq : (getEntry heap t).pendingInterestId = pendingInterestId := by
            have := hm
            simp only [idRef, beq_iff_eq] at this
            exact this
          rw [removeByIdLoop_cons, if_pos (by rw [hid]; exact heq)]
          refine ⟨?_, ?_, ?_, ?_⟩
          · rw [ih1, List.filter_cons]
            simp [hm]
          · rw [ih2, List.filter_cons]
            simp [hm]
          · rw [length_markRemoved, ih3]
          · intro j
            rw [getEntry_markRemoved, ih3, List.filter_cons]
            simp only [hm, if_true]
            by_cases hjt : j = t
            · subst hjt
              by_cases hr : j < heap.length
              · simp only [hr, and_true]
                rw [ih4 j]
                by_cases hjr : j ∈ rest.filter (idRef pendingInterestId heap)
                · simp [hjr, hr]
                · simp [hjr, hr]
              · simp only [hr, and_false, if_false]
                rw [ih4 j]
                simp [hr]
            · simp only [hjt, false_and, if_false]
              rw [ih4 j]
              have : (j ∈ t :: rest.filter (idRef pendingInterestId heap)) ↔
                  (j ∈ rest.filter (idRef pendingInterestId heap)) := by
                simp [List.mem_cons, hjt]
              simp [this]
      | false =>
          have hne : ¬ (getEntry heap t).pendingInterestId = pendingInterestId := by
            intro h
            have : idRef pendingInterestId heap t = true := by
              simp only [idRef, beq_iff_eq]
              exact h
            rw [hm] at this
            exact Bool.false_ne_true this
          rw [removeByIdLoop_cons, if_neg (by rw [hid]; exact hne)]
          refine ⟨?_, ?_, ih3, ?_⟩
          · rw [ih1, List.filter_cons]
            simp [hm]
          · rw [ih2, List.filter_cons]
            simp [hm]
          · intro j
            rw [ih4 j, List.filter_cons]
            simp [hm]

theorem addAll_go (reqs : List (Nat × ι × Nat × Option Nat)) :
    ∀ (st : TableState ι),
      (reqs.foldl (fun st q => (add st q.1 q.2.1 q.2.2.1 q.2.2.2).1) st).heap
          = st.heap ++ reqs.map toEntry ∧
      (reqs.foldl (fun st q => (add st q.1 q.2.1 q.2.2.1 q.2.2.2).1) st).table
          = st.table ++ List.range' st.heap.length reqs.length := by
  induction reqs with
  | nil => intro st; simp
  | cons q rs ih =>
      intro st
      obtain ⟨ih1, ih2⟩ := ih ⟨st.heap ++ [toEntry q], st.table ++ [st.heap.length]⟩
      constructor
      · rw [List.foldl_cons]
        refine Eq.trans ih1 ?_
        simp [add, toEntry]
      · rw [List.foldl_cons]
        refine Eq.trans ih2 ?_
        simp only [add]
        rw [List.append_assoc, List.length_append]
        simp [List.range'_succ]

theorem addAll_heap (reqs : List (Nat × ι × Nat × Option Nat)) :
    (addAll reqs).heap = reqs.map toEntry :=
  ((addAll_go reqs emptyTable).1).trans (by simp [emptyTable])

theorem addAll_table (reqs : List (Nat × ι × Nat × Option Nat)) :
    (addAll reqs).table = List.range reqs.length := by
  refine ((addAll_go reqs emptyTable).2).trans ?_
  simp [emptyTable, List.range_eq_range']

theorem getEntry_addAll (reqs : List (Nat × ι × Nat × Option Nat)) (t : Nat)
    (h : t < reqs.length) :
    getEntry (addAll reqs).heap t = toEntry (reqs.getD t ⟨0, default, 0, none⟩) := by
  rw [addAll_heap, getEntry]
  have hlen : t < (reqs.map toEntry).length := by simpa using h
  rw [List.getD_eq_getElem _ _ hlen, List.getElem_map, List.getD_eq_getElem _ _ h]

theorem wf_addAll (reqs : List (Nat × ι × Nat × Option Nat)) :
    WF (addAll reqs) := by
  refine ⟨?_, ?_, ?_⟩
  · rw [addAll_table]
    exact List.nodup_range _
  · intro t ht
    rw [addAll_table] at ht
    rw [addAll_heap, List.length_map]
    exact List.mem_range.mp ht
  · intro t ht
    rw [addAll_heap, List.length_map] at ht
    rw [getEntry_addAll reqs t ht, addAll_table]
    simp [toEntry, List.mem_range, ht]

theorem wf_emptyTable : WF (emptyTable : TableState ι) := by
  refine ⟨List.nodup_nil, ?_, ?_⟩
  · intro t ht
    simp [emptyTable] at ht
  · intro t ht
    simp [emptyTable] at ht

theorem getD_append_left {α : Type} :
    ∀ (l l' : List α) (i : Nat) (d : α), i < l.length →
      (l ++ l').getD i d = l.getD i d := by
  intro l
  induction l with
  | nil => intro l' i d h; simp at h
  | cons x xs ih =>
      intro l' i d h
      cases i with
      | zero => rfl
      | succ n => exact ih l' n d (Nat.lt_of_succ_lt_succ h)

theorem getD_append_length {α : Type} :
    ∀ (l : List α) (e d : α), (l ++ [e]).getD l.length d = e := by
  intro l
  induction l with
  | nil => intro e d; rfl
  | cons x xs ih => intro e d; exact ih e d

theorem wf_add (st : TableState ι) (pendingInterestId : Nat) (interestCopy : ι)
    (onData : Nat) (onTimeout : Option Nat) (hwf : WF st) :
    WF (add st pendingInterestId interestCopy onData onTimeout).1 := by
  obtain ⟨hnd, hbd, hiff⟩ := hwf
  have hfresh : st.heap.length ∉ st.table := by
    intro hmem
    exact Nat.lt_irrefl _ (hbd _ hmem)
  refine ⟨?_, ?_, ?_⟩
  · simp only [add]
    rw [List.nodup_append]
    exact ⟨hnd, List.nodup_singleton _, by simpa using hfresh⟩
  · intro t ht
    simp only [add] at ht ⊢
    rw [List.length_append, List.length_singleton]
    rcases List.mem_append.mp ht with h | h
    · exact Nat.lt_succ_of_lt (hbd _ h)
    · simp at h
      subst h
      exact Nat.lt_succ_self _
  · intro t ht
    simp only [add] at ht ⊢
    rw [List.length_append, List.length_singleton] at ht
    by_cases hlt : t < st.heap.length
    · rw [getEntry, getD_append_left _ _ _ _ hlt]
      have hne : t ≠ st.heap.length := Nat.ne_of_lt hlt
      rw [List.mem_append]
      simp only [List.mem_singleton, hne, or_false]
      exact hiff t hlt
    · have heq : t = st.heap.length := by omega
      subst heq
      rw [getEntry, getD_append_length]
      simp

theorem wf_extract (mn : ι → ν → Bool) (st : TableState ι) (name : ν)
    (entries : List Nat) (hwf : WF st) :
    WF (extractEntriesForExpressedInterest mn st name entries).1 := by
  obtain ⟨hnd, hbd, hiff⟩ := hwf
  obtain ⟨h1, _, h3, h4⟩ := extractLoop_spec mn name st.heap st.table entries
  refine ⟨?_, ?_, ?_⟩
  · simp only [extractEntriesForExpressedInterest]
    rw [h1]
    exact hnd.filter _
  · intro t ht
    simp only [extractEntriesForExpressedInterest] at ht ⊢
    rw [h1] at ht
    rw [h3]
    exact hbd _ (List.mem_of_mem_filter ht)
  · intro t ht
    simp only [extractEntriesForExpressedInterest] at ht ⊢
    rw [h3] at ht
    rw [h4 t, h1]
    by_cases hmem : t ∈ st.table.filter (matchRef mn name st.heap)
    · simp only [hmem, ht, and_true, if_true]
      have hmt : matchRef mn name st.heap t = true := List.of_mem_filter hmem
      constructor
      · intro h
        exact absurd h (by simp)
      · intro h
        have := List.of_mem_filter h
        rw [hmt] at this
        exact absurd this (by simp)
    · simp only [hmem, false_and, if_false]
      rw [hiff t ht]
      constructor
      · intro h
        rw [List.mem_filter]
        refine ⟨h, ?_⟩
        by_cases hmt : matchRef mn name st.heap t = true
        · exact absurd (List.mem_filter.mpr ⟨h, hmt⟩) hmem
        · simp [Bool.not_eq_true] at hmt
          simp [hmt]
      · intro h
        exact (List.mem_filter.mp h).1

theorem wf_removePendingInterest (st : TableState ι) (pendingInterestId : Nat)
    (hwf : WF st) : WF (removePendingInterest st pendingInterestId).1 := by
  obtain ⟨hnd, hbd, hiff⟩ := hwf
  obtain ⟨h1, _, h3, h4⟩ := removeByIdLoop_spec pendingInterestId st.heap st.table
  refine ⟨?_, ?_, ?_⟩
  · simp only [removePendingInterest]
    rw [h1]
    exact hnd.filter _
  · intro t ht
    simp only [removePendingInterest] at ht ⊢
    rw [h1] at ht
    rw [h3]
    exact hbd _ (List.mem_of_mem_filter ht)
  · intro t ht
    simp only [removePendingInterest] at ht ⊢
    rw [h3] at ht
    rw [h4 t, h1]
    by_cases hmem : t ∈ st.table.filter (idRef pendingInterestId st.heap)
    · simp only [hmem, ht, and_true, if_true]
      have hmt : idRef pendingInterestId st.heap t = true := List.of_mem_filter hmem
      constructor
      · intro h
        exact absurd h (by simp)
      · intro h
        have := List.of_mem_filter h
        rw [hmt] at this
        exact absurd this (by simp)
    · simp only [hmem, false_and, if_false]
      rw [hiff t ht]
      constructor
      · intro h
        rw [List.mem_filter]
        refine ⟨h, ?_⟩
        by_cases hmt : idRef pendingInterestId st.heap t = true
        · exact absurd (List.mem_filter.mpr ⟨h, hmt⟩) hmem
        · simp [Bool.not_eq_true] at hmt
          simp [hmt]
      · intro h
        exact (List.mem_filter.mp h).1

theorem removeEntry_eq_fastpath (st : TableState ι) (pendingInterest : Nat)
    (hrm : (getEntry st.heap pendingInterest).isRemoved = true) :
    removeEntry st pendingInterest = (st, false) := by
  simp only [removeEntry]
  rw [if_pos hrm]

theorem removeEntry_eq_found (st : TableState ι) (pendingInterest : Nat)
    (hrm : ¬ (getEntry st.heap pendingInterest).isRemoved = true)
    (hct : st.table.contains pendingInterest = true) :
    removeEntry st pendingInterest =
      (⟨markRemoved st.heap pendingInterest, st.table.erase pendingInterest⟩, true) := by
  simp only [removeEntry]
  rw [if_neg hrm, if_pos hct]

theorem removeEntry_eq_notfound (st : TableState ι) (pendingInterest : Nat)
    (hrm : ¬ (getEntry st.heap pendingInterest).isRemoved = true)
    (hct : ¬ st.table.contains pendingInterest = true) :
    removeEntry st pendingInterest = (st, false) := by
  simp only [removeEntry]
  rw [if_neg hrm, if_neg hct]

theorem wf_removeEntry (st : TableState ι) (pendingInterest : Nat)
    (hwf : WF st) : WF (removeEntry st pendingInterest).1 := by
  obtain ⟨hnd, hbd, hiff⟩ := hwf
  by_cases hrm : (getEntry st.heap pendingInterest).isRemoved
  · rw [removeEntry_eq_fastpath st pendingInterest hrm]
    exact ⟨hnd, hbd, hiff⟩
  · by_cases hct : st.table.contains pendingInterest
    · have hmem : pendingInterest ∈ st.table := List.elem_iff.mp hct
      have hplt : pendingInterest < st.heap.length := hbd _ hmem
      rw [removeEntry_eq_found st pendingInterest hrm hct]
      refine ⟨hnd.erase _, ?_, ?_⟩
      · intro t ht
        rw [length_markRemoved]
        exact hbd _ (List.mem_of_mem_erase ht)
      · intro t ht
        rw [length_markRemoved] at ht
        rw [getEntry_markRemoved]
        rw [hnd.mem_erase_iff]
        by_cases hte : t = pendingInterest
        · subst hte
          simp only [hplt, and_true, if_true]
          simp
        · simp only [hte, false_and, if_false]
          rw [hiff t ht]
          simp [hte]
    · rw [removeEntry_eq_notfound st pendingInterest hrm hct]
      exact ⟨hnd, hbd, hiff⟩

theorem extractLoop_entries (mn : ι → ν → Bool) (name : ν) (heap : List (Entry ι)) :
    ∀ (tbl entries : List Nat),
      extractLoop mn name heap tbl entries =
        ((extractLoop mn name heap tbl []).1,
         (extractLoop mn name heap tbl []).2.1,
         entries ++ (extractLoop mn name heap tbl []).2.2) := by
  intro tbl
  induction tbl with
  | nil =>
      intro entries
      simp [extractLoop_nil]
  | cons t rest ih =>
      intro entries
      rw [extractLoop_cons, extractLoop_cons, ih entries, ih ([] : List Nat)]
      simp only [List.nil_append]
      by_cases hc : mn (getEntry (extractLoop mn name heap rest []).1 t).interest name
      · simp [hc, List.append_assoc]
      · simp [hc]

/-- C3: for a table built by a sequence of `add` calls,
`extractEntriesForExpressedInterest(name, out)` appends to `out` exactly the
refs of entries whose interest matches `name`, each at most once, ordered
from most-recently-added match to least-recently-added match (reverse of
submission order among the matches); each extracted entry is removed from
the table and marked removed, and the non-matching entries remain, in their
original relative order, untouched. -/
theorem extract_exactly_matches_reverse_order (mn : ι → ν → Bool)
    (st : TableState ι) (reqs : List (Nat × ι × Nat × Option Nat))
    (hst : st = addAll reqs) (name : ν) (out : List Nat) :
    ((extractEntriesForExpressedInterest mn st name out).2 =
        out ++ (st.table.filter (matchRef mn name st.heap)).reverse) ∧
    ((st.table.filter (matchRef mn name st.heap)).Nodup) ∧
    ((extractEntriesForExpressedInterest mn st name out).1.table =
        st.table.filter (fun t => !(matchRef mn name st.heap t))) ∧
    (∀ t ∈ st.table, matchRef mn name st.heap t = true →
        (getEntry (extractEntriesForExpressedInterest mn st name out).1.heap t).isRemoved
            = true ∧
        t ∉ (extractEntriesForExpressedInterest mn st name out).1.table) ∧
    (∀ t ∈ (extractEntriesForExpressedInterest mn st name out).1.table,
        getEntry (extractEntriesForExpressedInterest mn st name out).1.heap t
          = getEntry st.heap t) := by
  obtain ⟨hnd, hbd, hiff⟩ : WF st := hst ▸ wf_addAll reqs
  obtain ⟨h1, h2, h3, h4⟩ := extractLoop_spec mn name st.heap st.table out
  refine ⟨h2, hnd.filter _, h1, ?_, ?_⟩
  · intro t ht hmt
    have hmem : t ∈ st.table.filter (matchRef mn name st.heap) :=
      List.mem_filter.mpr ⟨ht, hmt⟩
    constructor
    · simp only [extractEntriesForExpressedInterest]
      rw [h4 t]
      simp [hmem, hbd _ ht]
    · simp only [extractEntriesForExpressedInterest]
      rw [h1]
      intro hcon
      have := List.of_mem_filter hcon
      rw [hmt] at this
      exact absurd this (by simp)
  · intro t ht
    simp only [extractEntriesForExpressedInterest] at ht ⊢
    rw [h1] at ht
    rw [h4 t]
    have hnm : ¬ (t ∈ st.table.filter (matchRef mn name st.heap) ∧ t < st.heap.length) := by
      rintro ⟨hin, -⟩
      have hmt := List.of_mem_filter hin
      have hnmt := List.of_mem_filter ht
      rw [hmt] at hnmt
      exact absurd hnmt (by simp)
    rw [if_neg hnm]

/-- C9: `extractEntriesForExpressedInterest(name, entries)` only appends to
the caller-supplied `entries` list: whatever list is passed in, its existing
elements are preserved unchanged, in place and first, the extracted matches
are appended after them, and the resulting table state does not depend on the
passed-in list. -/
theorem extract_appends_only (mn : ι → ν → Bool) (st : TableState ι) (name : ν)
    (entries : List Nat) :
    ((extractEntriesForExpressedInterest mn st name entries).2 =
        entries ++ (extractEntriesForExpressedInterest mn st name []).2) ∧
    ((extractEntriesForExpressedInterest mn st name entries).1 =
        (extractEntriesForExpressedInterest mn st name []).1) := by
  constructor
  · simp only [extractEntriesForExpressedInterest]
    rw [extractLoop_entries mn name st.heap st.table entries]
  · simp only [extractEntriesForExpressedInterest]
    rw [extractLoop_entries mn name st.heap st.table entries]

/-- C6: the table invariant `WF` — every entry currently in the table has
`isRemoved` false and every allocated entry that has left the table has
`isRemoved` true — holds of the empty table and is preserved by `add`,
`extractEntriesForExpressedInterest`, `removePendingInterest` and
`removeEntry`; in particular, after an extraction, `isRemoved` is true for
every extracted entry and false for every entry still in the table. -/
theorem table_invariant_preserved :
    (WF (emptyTable : TableState ι)) ∧
    (∀ (st : TableState ι) (pendingInterestId : Nat) (interestCopy : ι)
        (onData : Nat) (onTimeout : Option Nat), WF st →
      WF (add st pendingInterestId interestCopy onData onTimeout).1) ∧
    (∀ (mn : ι → ν → Bool) (st : TableState ι) (name : ν) (entries : List Nat),
        WF st →
      WF (extractEntriesForExpressedInterest mn st name entries).1 ∧
      (∀ t ∈ (extractEntriesForExpressedInterest mn st name entries).2,
          t ∉ entries →
          (getEntry (extractEntriesForExpressedInterest mn st name entries).1.heap
              t).isRemoved = true) ∧
      (∀ t ∈ (extractEntriesForExpressedInterest mn st name entries).1.table,
          (getEntry (extractEntriesForExpressedInterest mn st name entries).1.heap
              t).isRemoved = false)) ∧
    (∀ (st : TableState ι) (pendingInterestId : Nat), WF st →
      WF (removePendingInterest st pendingInterestId).1) ∧
    (∀ (st : TableState ι) (pendingInterest : Nat), WF st →
      WF (removeEntry st pendingInterest).1) := by
  refine ⟨wf_emptyTable, wf_add, ?_, wf_removePendingInterest, wf_removeEntry⟩
  intro mn st name entries hwf
  obtain ⟨hnd, hbd, hiff⟩ := hwf
  obtain ⟨h1, h2, h3, h4⟩ := extractLoop_spec mn name st.heap st.table entries
  refine ⟨wf_extract mn st name entries ⟨hnd, hbd, hiff⟩, ?_, ?_⟩
  · intro t ht hnew
    simp only [extractEntriesForExpressedInterest] at ht ⊢
    rw [h2] at ht
    rcases List.mem_append.mp ht with h | h
    · exact absurd h hnew
    · have hmem : t ∈ st.table.filter (matchRef mn name st.heap) :=
        List.mem_reverse.mp h
      have htbl : t ∈ st.table := List.mem_of_mem_filter hmem
      rw [h4 t]
      simp [hmem, hbd _ htbl]
  · intro t ht
    have hwf' := wf_extract mn st name entries ⟨hnd, hbd, hiff⟩
    obtain ⟨-, hbd', hiff'⟩ := hwf'
    exact (hiff' t (hbd' t ht)).mpr ht

/-- C4: for an entry in a well-formed table, `removeEntry` returns `True` on
its first call (marking the entry removed and deleting it) and `False` on
every later call; and it returns `False`, leaving the state unchanged, on an
entry whose `isRemoved` flag is already set — in particular after the entry
was extracted by `extractEntriesForExpressedInterest` or removed by
`removePendingInterest`. -/
theorem removeEntry_true_once (st : TableState ι) (p : Nat) (hwf : WF st) :
    (p ∈ st.table →
      (removeEntry st p).2 = true ∧
      removeEntry (removeEntry st p).1 p = ((removeEntry st p).1, false)) ∧
    ((getEntry st.heap p).isRemoved = true → removeEntry st p = (st, false)) ∧
    (∀ (mn : ι → ν → Bool) (name : ν) (entries : List Nat) (t : Nat),
      t ∈ (extractEntriesForExpressedInterest mn st name entries).2 →
      t ∉ entries →
      removeEntry (extractEntriesForExpressedInterest mn st name entries).1 t =
        ((extractEntriesForExpressedInterest mn st name entries).1, false)) ∧
    (∀ (pendingInterestId t : Nat), t ∈ st.table →
      idRef pendingInterestId st.heap t = true →
      removeEntry (removePendingInterest st pendingInterestId).1 t =
        ((removePendingInterest st pendingInterestId).1, false)) := by
  obtain ⟨hnd, hbd, hiff⟩ := hwf
  refine ⟨?_, ?_, ?_, ?_⟩
  · intro hp
    have hplt : p < st.heap.length := hbd _ hp
    have hrm : ¬ (getEntry st.heap p).isRemoved = true := by
      rw [(hiff p hplt).mpr hp]
      simp
    have hct : st.table.contains p = true := List.elem_iff.mpr hp
    have hfound := removeEntry_eq_found st p hrm hct
    refine ⟨by rw [hfound], ?_⟩
    have hmarked : (getEntry (removeEntry st p).1.heap p).isRemoved = true := by
      rw [hfound, getEntry_markRemoved]
      simp [hplt]
    exact removeEntry_eq_fastpath _ p hmarked
  · exact removeEntry_eq_fastpath st p
  · intro mn name entries t ht hnew
    simp only [extractEntriesForExpressedInterest] at ht ⊢
    obtain ⟨h1, h2, h3, h4⟩ := extractLoop_spec mn name st.heap st.table entries
    rw [h2] at ht
    rcases List.mem_append.mp ht with h | h
    · exact absurd h hnew
    · have hmem : t ∈ st.table.filter (matchRef mn name st.heap) :=
        List.mem_reverse.mp h
      have htbl : t ∈ st.table := List.mem_of_mem_filter hmem
      have hmarked : (getEntry (extractLoop mn name st.heap st.table entries).1
          t).isRemoved = true := by
        rw [h4 t]
        simp [hmem, hbd _ htbl]
      exact removeEntry_eq_fastpath _ t hmarked
  · intro pendingInterestId t htbl hid
    simp only [removePendingInterest]
    obtain ⟨h1, h2, h3, h4⟩ := removeByIdLoop_spec pendingInterestId st.heap st.table
    have hmem : t ∈ st.table.filter (idRef pendingInterestId st.heap) :=
      List.mem_filter.mpr ⟨htbl, hid⟩
    have hmarked : (getEntry (removeByIdLoop pendingInterestId st.heap st.table).1
        t).isRemoved = true := by
      rw [h4 t]
      simp [hmem, hbd _ htbl]
    exact removeEntry_eq_fastpath _ t hmarked

/-- C5: `callTimeout` invokes `onTimeout` with the original interest when
`onTimeout` is present; any error the callback raises is caught (and logged)
without propagating to the caller of `callTimeout`; when `onTimeout` is
absent the call makes no invocation at all. -/
theorem callTimeout_never_propagates (behavior : Nat → ι → PyOutcome)
    (e : Entry ι) :
    ((Entry.callTimeout behavior e).2.2 = false) ∧
    (∀ cb, e.onTimeout = some cb →
        (Entry.callTimeout behavior e).2.1 = [(cb, e.interest)]) ∧
    (e.onTimeout = none → (Entry.callTimeout behavior e).2.1 = []) := by
  refine ⟨?_, ?_, ?_⟩
  · cases h : e.onTimeout with
    | none => simp [Entry.callTimeout, h]
    | some cb =>
        cases hb : behavior cb e.interest with
        | ok => simp [Entry.callTimeout, h, hb]
        | exn => simp [Entry.callTimeout, h, hb]
  · intro cb hcb
    cases hb : behavior cb e.interest with
    | ok => simp [Entry.callTimeout, hcb, hb]
    | exn => simp [Entry.callTimeout, hcb, hb]
  · intro hn
    simp [Entry.callTimeout, hn]

/-- C10: `callTimeout` leaves both the entry and the table unchanged: it
never sets the entry's `isRemoved` flag and never removes the entry from the
table, whether `onTimeout` is absent, returns, or raises. -/
theorem callTimeout_frame (behavior : Nat → ι → PyOutcome) :
    (∀ e : Entry ι, (Entry.callTimeout behavior e).1 = e) ∧
    (∀ (st : TableState ι) (r : Nat),
        (callTimeoutInState st r behavior).1 = st) := by
  have hentry : ∀ e : Entry ι, (Entry.callTimeout behavior e).1 = e := by
    intro e
    cases h : e.onTimeout with
    | none => simp [Entry.callTimeout, h]
    | some cb =>
        cases hb : behavior cb e.interest with
        | ok => simp [Entry.callTimeout, h, hb]
        | exn => simp [Entry.callTimeout, h, hb]
  refine ⟨hentry, ?_⟩
  intro st r
  simp only [callTimeoutInState]
  rw [hentry]
  rw [getEntry, set_getD_self]

/-- C2: `removePendingInterest` does remove (and mark) every entry whose id
matches, but the miss branch is NOT a safe logged no-op: with no matching
entry, `count == 0` and the debug call concatenates a `str` with the `int`
id, raising `TypeError` to the caller.  Concretely: on the empty table the
call for id 1 raises; on a one-entry table with id 5, the call for id 1
leaves the table unchanged and raises, while the call for id 5 removes the
entry, marks it, and does not raise. -/
theorem removePendingInterest_miss_raises :
    ((removePendingInterest (emptyTable : TableState Nat) 1).2 = true) ∧
    (removePendingInterest (addAll [(5, 7, 0, none)] : TableState Nat) 1 =
        (addAll [(5, 7, 0, none)], true)) ∧
    (removePendingInterest (addAll [(5, 7, 0, none)] : TableState Nat) 5 =
        (⟨[⟨5, 7, 0, none, true⟩], []⟩, false)) := by
  refine ⟨rfl, ?_, ?_⟩
  · decide
  · decide

/-- C1: `ThreadsafeFace.shutdown` does NOT stop the periodic services: its
body runs `self._loop == None`, a comparison whose result is discarded (not
the assignment `self._loop = None`), so `self._loop` stays set and, after
`shutdown()`, a tick of `_processEventsCallback` still re-arms itself at
10 ms and a tick of `_stopWhenCallback` still re-arms itself at 500 ms —
contradicting the claim (and the method's own docstring and comment). -/
theorem shutdown_leaves_services_armed :
    ((shutdown (⟨true, none, 0, emptyTable, false⟩ : TFState Nat Nat)).loop = true) ∧
    ((processEventsCallback
        (shutdown (⟨true, none, 0, emptyTable, false⟩ : TFState Nat Nat))
        PyOutcome.ok).2.1 =
      [LoopEffect.callLater 10 ServiceId.processEvents]) ∧
    ((stopWhenCallback
        (shutdown (⟨true, none, 0, emptyTable, false⟩ : TFState Nat Nat))
        (TestResult.returns false)).2.1 =
      [LoopEffect.callLater 500 ServiceId.stopWhen]) := by
  refine ⟨rfl, rfl, rfl⟩

/-- C7 counterexample: on an active face with a registered predicate, a tick
of `_stopWhenCallback` on which the predicate raises lets the exception
propagate out of the callback — the error is NOT caught at the invocation
site, refuting the claim as stated. -/
theorem stopWhen_raise_propagates :
    (stopWhenCallback (⟨true, some 3, 0, emptyTable, false⟩ : TFState Nat Nat)
        TestResult.raises).2.2 = true := rfl

/-- C7 (amended): on every tick of `_stopWhenCallback` while the loop
reference is set: with no registered predicate the service just re-arms at
500 ms; with a registered predicate, if it returns true the loop is stopped
and the service does not re-arm; if it returns false the service re-arms at
500 ms; and if it raises, the `finally` clause still re-arms the service at
500 ms — so polling continues across a raising tick — but the error then
propagates out of the callback (it is not caught at the invocation site;
asyncio's machinery handles it outside this method). -/
theorem stopWhenCallback_tick_behaviour (st : TFState ι ν) (tr : TestResult)
    (hactive : st.loop = true) :
    (st.stopWhenTest = none →
      stopWhenCallback st tr =
        (st, [LoopEffect.callLater 500 ServiceId.stopWhen], false)) ∧
    (st.stopWhenTest ≠ none →
      (tr = TestResult.returns true →
        stopWhenCallback st tr = (st, [LoopEffect.stop], false)) ∧
      (tr = TestResult.returns false →
        stopWhenCallback st tr =
          (st, [LoopEffect.callLater 500 ServiceId.stopWhen], false)) ∧
      (tr = TestResult.raises →
        stopWhenCallback st tr =
          (st, [LoopEffect.callLater 500 ServiceId.stopWhen], true))) := by
  constructor
  · intro hn
    simp [stopWhenCallback, hactive, hn]
  · intro hs
    obtain ⟨cb, hcb⟩ := Option.ne_none_iff_exists'.mp hs
    refine ⟨?_, ?_, ?_⟩
    · intro htr
      subst htr
      simp [stopWhenCallback, hactive, hcb]
    · intro htr
      subst htr
      simp [stopWhenCallback, hactive, hcb]
    · intro htr
      subst htr
      simp [stopWhenCallback, hactive, hcb]

/-- C8: each handle-returning operation of the scheduler layer
(`expressInterest`, `registerPrefix`, `setInterestFilter`) pre-allocates its
id from the monotonic generator on the calling thread, returns exactly that
id synchronously, and hands the remaining work off to the loop thread as a
single `call_soon_threadsafe` unit, leaving the pending-interest table
untouched on the calling thread. -/
theorem handle_ops_preallocate_and_handoff (st : TFState ι ν) (i : ι) (p f : ν) :
    (expressInterest st i =
      ({ st with lastEntryId := (getNextEntryId st.lastEntryId).2 },
       (getNextEntryId st.lastEntryId).1,
       [LoopEffect.callSoonThreadsafe
          (HandoffCall.expressInterestHelper (getNextEntryId st.lastEntryId).1 i)])) ∧
    (registerPrefix st p =
      ({ st with lastEntryId := (getNextEntryId st.lastEntryId).2 },
       (getNextEntryId st.lastEntryId).1,
       [LoopEffect.callSoonThreadsafe
          (HandoffCall.registerPrefixHelper (getNextEntryId st.lastEntryId).1 p)])) ∧
    (setInterestFilter st f =
      ({ st with lastEntryId := (getNextEntryId st.lastEntryId).2 },
       (getNextEntryId st.lastEntryId).1,
       [LoopEffect.callSoonThreadsafe
          (HandoffCall.setInterestFilterHelper (getNextEntryId st.lastEntryId).1 f)])) ∧
    ((expressInterest st i).1.pit = st.pit) ∧
    ((registerPrefix st p).1.pit = st.pit) ∧
    ((setInterestFilter st f).1.pit = st.pit) :=
  ⟨rfl, rfl, rfl, rfl, rfl, rfl⟩

/-- Witness for C3: three adds with interests 10, 99, 5 and prefix-style
matching `interest ≤ name` against name 20 extract refs `[2, 0]` — the two
matches, most recent first. -/
theorem extract_exactly_matches_reverse_order_witness :
    (extractEntriesForExpressedInterest (fun i n : Nat => decide (i ≤ n))
        (addAll [(1, 10, 0, none), (2, 99, 0, none), (3, 5, 0, none)]) 20 []).2
      = [2, 0] := by
  have h := extract_exactly_matches_reverse_order (fun i n : Nat => decide (i ≤ n))
      (addAll [(1, 10, 0, none), (2, 99, 0, none), (3, 5, 0, none)])
      [(1, 10, 0, none), (2, 99, 0, none), (3, 5, 0, none)] rfl 20 []
  refine h.1.trans ?_
  decide

/-- Witness for C4: on a one-entry table, `removeEntry` returns true then
false. -/
theorem removeEntry_true_once_witness :
    ((removeEntry (addAll [(5, 7, 0, none)] : TableState Nat) 0).2 = true) ∧
    (removeEntry (removeEntry (addAll [(5, 7, 0, none)] : TableState Nat) 0).1 0 =
      ((removeEntry (addAll [(5, 7, 0, none)] : TableState Nat) 0).1, false)) := by
  have h := removeEntry_true_once (ν := Nat)
      (addAll [(5, 7, 0, none)] : TableState Nat) 0 (wf_addAll _)
  exact h.1 (by decide)

/-- Witness for C5: a present `onTimeout` that raises is invoked with the
original interest and the error does not propagate. -/
theorem callTimeout_never_propagates_witness :
    ((Entry.callTimeout (fun _ _ => PyOutcome.exn)
        (⟨1, 42, 0, some 9, false⟩ : Entry Nat)).2.2 = false) ∧
    ((Entry.callTimeout (fun _ _ => PyOutcome.exn)
        (⟨1, 42, 0, some 9, false⟩ : Entry Nat)).2.1 = [(9, 42)]) := by
  have h := callTimeout_never_propagates (fun _ _ => PyOutcome.exn)
      (⟨1, 42, 0, some 9, false⟩ : Entry Nat)
  exact ⟨h.1, h.2.1 9 rfl⟩

/-- Witness for C6: the invariant holds after an `add` on the empty table. -/
theorem table_invariant_preserved_witness :
    WF ((add (emptyTable : TableState Nat) 1 2 0 none).1) := by
  have h := table_invariant_preserved (ι := Nat) (ν := Nat)
  exact h.2.1 emptyTable 1 2 0 none h.1

/-- Witness for C7 (amended): with a registered predicate returning true,
the tick stops the loop and does not re-arm. -/
theorem stopWhenCallback_tick_behaviour_witness :
    stopWhenCallback (⟨true, some 3, 0, emptyTable, false⟩ : TFState Nat Nat)
        (TestResult.returns true) =
      (⟨true, some 3, 0, emptyTable, false⟩, [LoopEffect.stop], false) := by
  have h := stopWhenCallback_tick_behaviour
      (⟨true, some 3, 0, emptyTable, false⟩ : TFState Nat Nat)
      (TestResult.returns true) rfl
  exact (h.2 (by decide)).1 rfl

end PyNDN
